import Mathlib

/-!
Verification of the GarminDeviceExport KMZ export core
(`src/algorithms/export_kmz.py`, class `ExportKMZAlgorithm`).

The Python code is shallowly embedded as follows.

* Python floats are modelled as exact rationals (`ℚ`).  In
  `_scale_for_tile_cap` the binary-search endpoints are dyadic rationals
  `k / 2^i` with `i ≤ 40`, which IEEE doubles represent exactly, and every
  product and quotient appearing in the claims below stays far from any
  representation boundary, so the rational model agrees with the float
  execution on everything proved here.
* Python `int` and array dimensions are `ℕ` / `ℤ` (Python integers are
  arbitrary precision, so no wraparound modelling is needed).
* `int(x * 0.9)` on a pixel dimension is `9 * x / 10` (ℕ division): the float
  product `x * 0.9` always truncates to `⌊9x/10⌋` for realistic dimensions
  because `0.9`'s representation error (≈2.5e-17 relative) never crosses an
  integer boundary of `9x/10`, whose fractional part is 0 or ≥ 1/10.
* The external collaborators (GDAL resampling, the PIL JPEG encoder, the PIL
  LANCZOS resampler, the WGS84 transform) are abstracted as parameters:
  an encoder `enc : Tile → ℕ` giving the encoded byte length of a tile, a
  resampler `rs` giving the resized pixel content, a cropper `cropData`, and
  the already-transformed bounding box.  All claims proved about the loops
  hold for arbitrary such parameters.
-/

namespace GarminExport

/-! ## Module constants (export_kmz.py, top of file) -/

/-- `MAX_PIXELS = 1_000_000`. -/
def MAX_PIXELS : ℕ := 1000000

/-- `MAX_BYTES = 3 * 1024 * 1024`. -/
def MAX_BYTES : ℕ := 3 * 1024 * 1024

/-- `JPEG_QUALITY = 75`. -/
def JPEG_QUALITY : ℕ := 75

/-- `TILE_SIDE = int(math.ceil(math.sqrt(MAX_PIXELS)))`; `sqrt 1e6 = 1000.0`
exactly, so this is 1000. -/
def TILE_SIDE : ℕ := 1000

/-! ## The tile-budget solver `_scale_for_tile_cap`

```
lo, hi = 0.0, 1.0
for _ in range(40):
    mid = (lo + hi) / 2.0
    cols = int(math.ceil((W * mid) / float(tile_side)))
    rows = int(math.ceil((H * mid) / float(tile_side)))
    if max(1, cols) * max(1, rows) <= cap:
        lo = mid
    else:
        hi = mid
return max(1e-6, lo)
```
-/

/-- The tile count `max(1, cols) * max(1, rows)` the solver tests at scale
`s`, with `cols = ceil(W*s/tile_side)` and `rows = ceil(H*s/tile_side)`. -/
def gridCount (W H tileSide : ℕ) (s : ℚ) : ℤ :=
  max 1 ⌈(W : ℚ) * s / (tileSide : ℚ)⌉ * max 1 ⌈(H : ℚ) * s / (tileSide : ℚ)⌉

/-- One iteration of the solver's bisection: test the midpoint and move
`lo` up or `hi` down. -/
def bisectStep (W H tileSide cap : ℕ) (p : ℚ × ℚ) : ℚ × ℚ :=
  if gridCount W H tileSide ((p.1 + p.2) / 2) ≤ (cap : ℤ) then ((p.1 + p.2) / 2, p.2)
  else (p.1, (p.1 + p.2) / 2)

/-- The `for _ in range(n)` loop of the solver. -/
def bisectLoop (W H tileSide cap : ℕ) : ℕ → ℚ × ℚ → ℚ × ℚ
  | 0, p => p
  | n + 1, p => bisectLoop W H tileSide cap n (bisectStep W H tileSide cap p)

/-- `_scale_for_tile_cap(W, H, tile_side, cap)`: 40 bisection iterations from
`(0, 1)`, then `max(1e-6, lo)`. -/
def scale_for_tile_cap (W H tileSide cap : ℕ) : ℚ :=
  max (1 / 1000000) (bisectLoop W H tileSide cap 40 (0, 1)).1

/-! ## The tile grid

```
cols = int(math.ceil(newW / float(TILE_SIDE)))
rows = int(math.ceil(newH / float(TILE_SIDE)))
tile_w = int(math.ceil(base_img.width / float(cols)))
tile_h = int(math.ceil(base_img.height / float(rows)))
x0, y0 = c*tile_w, r*tile_h
x1, y1 = min(base_img.width, x0+tile_w), min(base_img.height, y0+tile_h)
```
The x and y formulas are identical with `newW ↔ newH`, so they are embedded
once, parametrised by the image extent `n` along the axis. -/

/-- Ceiling division `int(math.ceil(n / float(d)))` for `n, d : ℕ`. -/
def ceilDiv (n d : ℕ) : ℕ := (n + d - 1) / d

/-- `cols` (for `n = newW`) respectively `rows` (for `n = newH`). -/
def gridCells (n : ℕ) : ℕ := ceilDiv n TILE_SIDE

/-- `tile_w` respectively `tile_h`. -/
def tileLen (n : ℕ) : ℕ := ceilDiv n (gridCells n)

/-- `x0 = c * tile_w` respectively `y0 = r * tile_h`. -/
def crop0 (n i : ℕ) : ℕ := i * tileLen n

/-- `x1 = min(width, x0 + tile_w)` respectively `y1`. -/
def crop1 (n i : ℕ) : ℕ := min n (crop0 n i + tileLen n)

/-- The cropped tile's extent along one axis. -/
def cropLen (n i : ℕ) : ℕ := crop1 n i - crop0 n i

/-- The condition under which the per-tile 1 MP downscale branch fires:
`scale_mp = min(1.0, sqrt(MAX_PIXELS / max(1, tw*th)))` and the branch tests
`scale_mp < 1.0`, which (IEEE division and square root being correctly
rounded and monotone, with `1.0` exact) holds iff `tw * th > MAX_PIXELS`. -/
def mpBranch (tw th : ℕ) : Bool := decide (MAX_PIXELS < tw * th)

/-! ## Tile geographic boxes

```
twest  = west0 + lon_span * (x0 / float(base_img.width))
teast  = west0 + lon_span * (x1 / float(base_img.width))
tnorth = north0 - lat_span * (y0 / float(base_img.height))  # flip Y
tsouth = north0 - lat_span * (y1 / float(base_img.height))  # flip Y
```
-/

def twest (west0 east0 : ℚ) (n c : ℕ) : ℚ :=
  west0 + (east0 - west0) * ((crop0 n c : ℚ) / (n : ℚ))

def teast (west0 east0 : ℚ) (n c : ℕ) : ℚ :=
  west0 + (east0 - west0) * ((crop1 n c : ℚ) / (n : ℚ))

def tnorth (north0 south0 : ℚ) (n r : ℕ) : ℚ :=
  north0 - (north0 - south0) * ((crop0 n r : ℚ) / (n : ℚ))

def tsouth (north0 south0 : ℚ) (n r : ℕ) : ℚ :=
  north0 - (north0 - south0) * ((crop1 n r : ℚ) / (n : ℚ))

/-! ## The per-tile constraint enforcer

```
jpg = jpg75_nonprog(tile)
while len(jpg) > MAX_BYTES and (tile.width*tile.height) > 64*64:
    tile = tile.resize((max(1,int(tile.width*0.9)), max(1,int(tile.height*0.9))), Image.LANCZOS)
    jpg = jpg75_nonprog(tile)
```
The JPEG encoder is external; it is abstracted as an arbitrary byte-length
function `enc : Tile → ℕ`, and the LANCZOS resampler as an arbitrary pixel
content function `rs`.  A tile is its two pixel dimensions plus an abstract
content identifier. -/

/-- An in-memory tile image: width, height, abstract pixel content. -/
structure Tile where
  w : ℕ
  h : ℕ
  data : ℕ
deriving DecidableEq

/-- `tile.resize((max(1,int(w*0.9)), max(1,int(h*0.9))), LANCZOS)`. -/
def shrink (rs : Tile → ℕ → ℕ → ℕ) (t : Tile) : Tile :=
  ⟨max 1 (9 * t.w / 10), max 1 (9 * t.h / 10),
   rs t (max 1 (9 * t.w / 10)) (max 1 (9 * t.h / 10))⟩

/-- The shrink loop with explicit fuel (one unit per iteration). -/
def enforceFuel (enc : Tile → ℕ) (rs : Tile → ℕ → ℕ → ℕ) : ℕ → Tile → Tile
  | 0, t => t
  | n + 1, t =>
    if MAX_BYTES < enc t ∧ 64 * 64 < t.w * t.h then enforceFuel enc rs n (shrink rs t)
    else t

/-- The shrink loop; the initial pixel area is enough fuel
(`enforceFuel_stable` below shows any larger fuel gives the same result,
i.e. the loop terminates within `t.w * t.h` iterations). -/
def enforce (enc : Tile → ℕ) (rs : Tile → ℕ → ℕ → ℕ) (t : Tile) : Tile :=
  enforceFuel enc rs (t.w * t.h) t

/-! ## Band normalization

```
if bands == 1:
    a = arr.astype('float32')
    mn, mx = float(a.min()), float(a.max())
    a = np.zeros_like(a) if mx <= mn else (a - mn) * (255.0 / (mx - mn))
    rgb = np.stack([a, a, a]).astype('uint8')
else:
    rgb = arr[:3] if arr.ndim == 3 else arr
    if rgb.dtype != np.uint8:
        rgb = rgb.astype('float32')
        for i in range(rgb.shape[0]):
            mn, mx = float(rgb[i].min()), float(rgb[i].max())
            rgb[i] = 0 if mx <= mn else (rgb[i] - mn) * (255.0 / (mx - mn))
        rgb = rgb.astype('uint8')
```
A band is a flattened list of samples in `ℚ`; `astype('uint8')` truncates
toward zero and wraps mod 256 (all values reaching it here are ≥ 0, where
truncation is `⌊·⌋`). -/

/-- `astype('uint8')` on a (non-negative) sample. -/
def u8 (x : ℚ) : ℕ := (Int.toNat ⌊x⌋) % 256

/-- `a.min()` of a non-empty flattened band (numpy raises on empty input;
the `[]` case is unreachable and maps to 0). -/
def bandMin : List ℚ → ℚ
  | [] => 0
  | x :: xs => xs.foldl min x

/-- `a.max()`, same conventions as `bandMin`. -/
def bandMax : List ℚ → ℚ
  | [] => 0
  | x :: xs => xs.foldl max x

/-- `(a - mn) * (255.0 / (mx - mn))`. -/
def stretch (mn mx v : ℚ) : ℚ := (v - mn) * (255 / (mx - mn))

/-- `np.zeros_like(a) if mx <= mn else (a - mn) * (255.0 / (mx - mn))`:
the min–max stretch of one band, with the zero-range guard. -/
def normBand (l : List ℚ) : List ℚ :=
  if bandMax l ≤ bandMin l then l.map fun _ => 0
  else l.map (stretch (bandMin l) (bandMax l))

/-- The single-band branch: stretch, then `np.stack([a,a,a]).astype('uint8')`. -/
def normalizeSingle (l : List ℚ) : List (List ℕ) :=
  [(normBand l).map u8, (normBand l).map u8, (normBand l).map u8]

/-- The multi-band branch: keep the first three bands; pass through if the
dtype is already uint8, else stretch each band and cast down. -/
def normalizeMulti (isUint8 : Bool) (bands : List (List ℚ)) : List (List ℚ) :=
  if isUint8 then bands.take 3
  else (bands.take 3).map fun b => (normBand b).map fun v => ((u8 v : ℕ) : ℚ)

/-! ## The tile loop and export pipeline

```
idx = 0
for r in range(rows):
    for c in range(cols):
        x0, y0 = c*tile_w, r*tile_h
        x1, y1 = min(base_img.width, x0+tile_w), min(base_img.height, y0+tile_h)
        if x0 >= x1 or y0 >= y1:
            idx += 1; continue
        tile = base_img.crop((x0, y0, x1, y1))
        ... 1MP branch ... shrink loop ...
        overlays.append((f"image_{idx:03d}.jpg", jpg, twest, teast, tsouth, tnorth))
        idx += 1
```
-/

/-- The external collaborators of one export: the JPEG encoder (byte
length), the LANCZOS resampler, the cropper (pixel content of a crop
rectangle), and the one-shot 1 MP resize (whose float scale factor is
irrelevant here because the branch never fires on grid crops, by
`crop_dims_bounded`). -/
structure Ext where
  enc : Tile → ℕ
  rs : Tile → ℕ → ℕ → ℕ
  cropData : ℕ → ℕ → ℕ → ℕ → ℕ
  mpResize : Tile → Tile

/-- The WGS84 bounding box of the source layer, already transformed by the
host. -/
structure Box where
  north0 : ℚ
  south0 : ℚ
  east0 : ℚ
  west0 : ℚ

/-- One `overlays` entry: `(fname, jpg, twest, teast, tsouth, tnorth)`;
the JPEG payload is represented by the enforced tile it encodes. -/
structure Overlay where
  fname : String
  tile : Tile
  west : ℚ
  east : ℚ
  south : ℚ
  north : ℚ

/-- `f"{idx:03d}"`: decimal digits left-padded with zeros to width ≥ 3. -/
def pad3 (n : ℕ) : String :=
  String.mk (List.replicate (3 - (Nat.repr n).length) '0') ++ Nat.repr n

/-- `f"image_{idx:03d}.jpg"`. -/
def tileName (idx : ℕ) : String :=
  "image_" ++ pad3 idx ++ ".jpg"

/-- Crop cell `(r, c)`, apply the 1 MP branch, run the shrink loop. -/
def mkTile (E : Ext) (newW newH r c : ℕ) : Tile :=
  enforce E.enc E.rs
    (if mpBranch (cropLen newW c) (cropLen newH r) then
       E.mpResize ⟨cropLen newW c, cropLen newH r,
         E.cropData (crop0 newW c) (crop0 newH r) (crop1 newW c) (crop1 newH r)⟩
     else ⟨cropLen newW c, cropLen newH r,
       E.cropData (crop0 newW c) (crop0 newH r) (crop1 newW c) (crop1 newH r)⟩)

/-- The overlay record appended for a non-degenerate cell `(r, c)` at
counter value `idx`. -/
def mkOverlay (E : Ext) (B : Box) (newW newH idx r c : ℕ) : Overlay :=
  { fname := tileName idx
    tile := mkTile E newW newH r c
    west := twest B.west0 B.east0 newW c
    east := teast B.west0 B.east0 newW c
    south := tsouth B.north0 B.south0 newH r
    north := tnorth B.north0 B.south0 newH r }

/-- `x0 >= x1 or y0 >= y1` for the cell `rc = (r, c)`. -/
def degen (newW newH : ℕ) (rc : ℕ × ℕ) : Bool :=
  decide (crop1 newW rc.2 ≤ crop0 newW rc.2) || decide (crop1 newH rc.1 ≤ crop0 newH rc.1)

/-- The loop body over a list of remaining cells, carrying the `idx`
counter, which advances on every cell — degenerate ones included. -/
def processCells (E : Ext) (B : Box) (newW newH : ℕ) : List (ℕ × ℕ) → ℕ → List Overlay
  | [], _ => []
  | rc :: rest, idx =>
    if degen newW newH rc then processCells E B newW newH rest (idx + 1)
    else mkOverlay E B newW newH idx rc.1 rc.2 :: processCells E B newW newH rest (idx + 1)

/-- The nested `for r in range(rows): for c in range(cols)` cell sequence. -/
def cellsOf (rows cols : ℕ) : List (ℕ × ℕ) :=
  (List.range rows).flatMap fun r => (List.range cols).map fun c => (r, c)

/-- The full `overlays` list of one export at resampled size
`newW × newH`. -/
def overlaysFor (E : Ext) (B : Box) (newW newH : ℕ) : List Overlay :=
  processCells E B newW newH (cellsOf (gridCells newH) (gridCells newW)) 0

/-! ## Device cap selection and the top of `processAlgorithm`

```
if dev_ix == 2:  # Custom
    tile_cap = max(1, custom)
else:
    tile_cap = DEVICE_LIMITS[max(0, min(dev_ix, len(DEVICE_LIMITS)-1))]
...
s = self._scale_for_tile_cap(W, H, TILE_SIDE, tile_cap)
newW, newH = max(1, int(round(W*s))), max(1, int(round(H*s)))
```
-/

/-- `DEVICE_LIMITS = [100, 500]`. -/
def DEVICE_LIMITS : List ℤ := [100, 500]

/-- The effective tile cap chosen from the device enum and the Custom cap
parameter.  Note the `max(1, custom)` clamp: an out-of-range Custom value is
not rejected. -/
def tile_cap (dev_ix custom : ℤ) : ℤ :=
  if dev_ix = 2 then max 1 custom
  else DEVICE_LIMITS.getD (max 0 (min dev_ix 1)).toNat 0

/-- Python 3 `round` on a non-negative value: nearest integer, ties to
even. -/
def pyround (x : ℚ) : ℤ :=
  if x - ⌊x⌋ < 1 / 2 then ⌊x⌋
  else if (1 : ℚ) / 2 < x - ⌊x⌋ then ⌊x⌋ + 1
  else if ⌊x⌋ % 2 = 0 then ⌊x⌋ else ⌊x⌋ + 1

/-- The export pipeline of `processAlgorithm` after parameter retrieval:
select the cap, solve for the scale, resample, cut, enforce, and return the
overlays.  The `Option` result models the fatal
`QgsProcessingException` path: `none` would be a rejection before
processing; the algorithm body has no rejection branch for the tile-cap
parameter, so the function is total in it. -/
def runExport (E : Ext) (B : Box) (dev_ix custom : ℤ) (W H : ℕ) : Option (List Overlay) :=
  some (overlaysFor E B
    (max 1 (pyround ((W : ℚ) * scale_for_tile_cap W H TILE_SIDE (tile_cap dev_ix custom).toNat)).toNat)
    (max 1 (pyround ((H : ℚ) * scale_for_tile_cap W H TILE_SIDE (tile_cap dev_ix custom).toNat)).toNat))

/-- A trivial instantiation of the external collaborators, used as witness
input. -/
def extStub : Ext := ⟨fun _ => 0, fun _ _ _ => 0, fun _ _ _ _ => 0, id⟩

/-- A concrete bounding box, used as witness input. -/
def boxStub : Box := ⟨48, 47, 12, 11⟩

/-! ## Theorems -/

/-- The bisection invariant: the lower endpoint always satisfies the cap
predicate (it starts at 0 and is only ever replaced by a midpoint that was
just tested to satisfy it). -/
lemma bisectLoop_inv (W H tileSide cap : ℕ) :
    ∀ (n : ℕ) (p : ℚ × ℚ), gridCount W H tileSide p.1 ≤ (cap : ℤ) →
      gridCount W H tileSide (bisectLoop W H tileSide cap n p).1 ≤ (cap : ℤ) := by
  intro n
  induction n with
  | zero => intro p hp; simpa [bisectLoop] using hp
  | succ n ih =>
    intro p hp
    simp only [bisectLoop]
    apply ih
    simp only [bisectStep]
    split_ifs with h
    · simpa using h
    · simpa using hp

/-- Comparing two bisection runs with caps `cap₁ ≤ cap₂`: the lower endpoint
of the first run never overtakes that of the second.  The invariant carried
through the induction is that either the two states are equal or the whole
first interval lies at or below the second lower endpoint. -/
lemma bisectLoop_mono (W H tileSide cap₁ cap₂ : ℕ) (hcap : cap₁ ≤ cap₂) :
    ∀ (n : ℕ) (lo₁ hi₁ lo₂ hi₂ : ℚ), lo₁ ≤ lo₂ → 0 ≤ hi₁ - lo₁ →
      hi₁ - lo₁ = hi₂ - lo₂ → (lo₁ = lo₂ ∨ lo₁ + (hi₁ - lo₁) ≤ lo₂) →
      (bisectLoop W H tileSide cap₁ n (lo₁, hi₁)).1 ≤
        (bisectLoop W H tileSide cap₂ n (lo₂, hi₂)).1 := by
  intro n
  have hcast : (cap₁ : ℤ) ≤ (cap₂ : ℤ) := by exact_mod_cast hcap
  induction n with
  | zero => intro lo₁ hi₁ lo₂ hi₂ h1 _ _ _; simpa [bisectLoop] using h1
  | succ n ih =>
    intro lo₁ hi₁ lo₂ hi₂ hlo hg hgap hcase
    simp only [bisectLoop, bisectStep]
    rcases hcase with heq | hfar
    · subst heq
      have hhi : hi₁ = hi₂ := by linarith
      subst hhi
      by_cases hQ1 : gridCount W H tileSide ((lo₁ + hi₁) / 2) ≤ (cap₁ : ℤ)
      · have hQ2 : gridCount W H tileSide ((lo₁ + hi₁) / 2) ≤ (cap₂ : ℤ) := le_trans hQ1 hcast
        rw [if_pos hQ1, if_pos hQ2]
        exact ih _ _ _ _ le_rfl (by linarith) rfl (Or.inl rfl)
      · by_cases hQ2 : gridCount W H tileSide ((lo₁ + hi₁) / 2) ≤ (cap₂ : ℤ)
        · rw [if_neg hQ1, if_pos hQ2]
          exact ih _ _ _ _ (by linarith) (by linarith) (by ring)
            (Or.inr (le_of_eq (by ring)))
        · rw [if_neg hQ1, if_neg hQ2]
          exact ih _ _ _ _ le_rfl (by linarith) rfl (Or.inl rfl)
    · by_cases hQ1 : gridCount W H tileSide ((lo₁ + hi₁) / 2) ≤ (cap₁ : ℤ) <;>
        by_cases hQ2 : gridCount W H tileSide ((lo₂ + hi₂) / 2) ≤ (cap₂ : ℤ)
      · rw [if_pos hQ1, if_pos hQ2]
        exact ih _ _ _ _ (by linarith) (by linarith) (by linarith)
          (Or.inr (by linarith))
      · rw [if_pos hQ1, if_neg hQ2]
        exact ih _ _ _ _ (by linarith) (by linarith) (by linarith)
          (Or.inr (by linarith))
      · rw [if_neg hQ1, if_pos hQ2]
        exact ih _ _ _ _ (by linarith) (by linarith) (by linarith)
          (Or.inr (by linarith))
      · rw [if_neg hQ1, if_neg hQ2]
        exact ih _ _ _ _ (by linarith) (by linarith) (by linarith)
          (Or.inr (by linarith))

/-- C2: for fixed `W, H, tileSide` (all ≥ 1), the scale returned by
`_scale_for_tile_cap` is non-decreasing in the cap:
`cap₁ ≤ cap₂ → scale(cap₁) ≤ scale(cap₂)`. -/
theorem scale_for_tile_cap_mono (W H tileSide cap₁ cap₂ : ℕ)
    (hW : 1 ≤ W) (hH : 1 ≤ H) (ht : 1 ≤ tileSide) (hcap : cap₁ ≤ cap₂) :
    scale_for_tile_cap W H tileSide cap₁ ≤ scale_for_tile_cap W H tileSide cap₂ := by
  unfold scale_for_tile_cap
  exact max_le_max le_rfl
    (bisectLoop_mono W H tileSide cap₁ cap₂ hcap 40 0 1 0 1 le_rfl (by norm_num) rfl
      (Or.inl rfl))

/-- Witness for `scale_for_tile_cap_mono` at `W=800, H=600, tileSide=1000`,
caps 100 ≤ 500. -/
theorem scale_for_tile_cap_mono_witness :
    scale_for_tile_cap 800 600 1000 100 ≤ scale_for_tile_cap 800 600 1000 500 :=
  scale_for_tile_cap_mono 800 600 1000 100 500 (by decide) (by decide) (by decide) (by decide)

/-- C1 (amended): feasibility of the returned scale.  The invariant makes the
final `lo` feasible, but the code returns `max(1e-6, lo)`, so feasibility of
the returned value additionally needs the `1e-6` floor itself to be feasible;
`W ≤ tileSide * 10^6` and `H ≤ tileSide * 10^6` guarantee exactly that (then
`ceil(W * 1e-6 / tileSide) ≤ 1`). -/
theorem scale_for_tile_cap_feasible (W H tileSide cap : ℕ)
    (hW : 1 ≤ W) (hH : 1 ≤ H) (ht : 1 ≤ tileSide) (hcap : 1 ≤ cap)
    (hWb : W ≤ tileSide * 1000000) (hHb : H ≤ tileSide * 1000000) :
    gridCount W H tileSide (scale_for_tile_cap W H tileSide cap) ≤ (cap : ℤ) := by
  have h0 : gridCount W H tileSide ((0 : ℚ), (1 : ℚ)).1 ≤ (cap : ℤ) := by
    simp only [gridCount]
    norm_num
    exact hcap
  have hlo := bisectLoop_inv W H tileSide cap 40 ((0 : ℚ), (1 : ℚ)) h0
  unfold scale_for_tile_cap
  rcases le_total (bisectLoop W H tileSide cap 40 (0, 1)).1 (1 / 1000000 : ℚ) with hle | hge
  · rw [max_eq_left hle]
    have htQ : (0 : ℚ) < (tileSide : ℚ) := by exact_mod_cast ht
    have hxW : (W : ℚ) * (1 / 1000000) / (tileSide : ℚ) ≤ 1 := by
      rw [div_le_one htQ]
      have hWQ : (W : ℚ) ≤ (tileSide : ℚ) * 1000000 := by exact_mod_cast hWb
      linarith
    have hxH : (H : ℚ) * (1 / 1000000) / (tileSide : ℚ) ≤ 1 := by
      rw [div_le_one htQ]
      have hHQ : (H : ℚ) ≤ (tileSide : ℚ) * 1000000 := by exact_mod_cast hHb
      linarith
    have f1 : max 1 ⌈(W : ℚ) * (1 / 1000000) / (tileSide : ℚ)⌉ = 1 := by
      have := Int.ceil_le.mpr (by exact_mod_cast hxW : (W : ℚ) * (1 / 1000000) / (tileSide : ℚ) ≤ ((1 : ℤ) : ℚ))
      omega
    have f2 : max 1 ⌈(H : ℚ) * (1 / 1000000) / (tileSide : ℚ)⌉ = 1 := by
      have := Int.ceil_le.mpr (by exact_mod_cast hxH : (H : ℚ) * (1 / 1000000) / (tileSide : ℚ) ≤ ((1 : ℤ) : ℚ))
      omega
    unfold gridCount
    rw [f1, f2]
    omega
  · rw [max_eq_right hge]
    exact hlo

/-- Witness for `scale_for_tile_cap_feasible` at `W=4000, H=3000,
tileSide=1000, cap=12` (the spec's example scenario). -/
theorem scale_for_tile_cap_feasible_witness :
    gridCount 4000 3000 1000 (scale_for_tile_cap 4000 3000 1000 12) ≤ ((12 : ℕ) : ℤ) :=
  scale_for_tile_cap_feasible 4000 3000 1000 12 (by decide) (by decide) (by decide)
    (by decide) (by decide) (by decide)

/-- C1 counterexample: as stated (for every `W, H, tileSide, cap ≥ 1`) the
feasibility claim is false.  At `W = H = 2,000,000`, `tileSide = 1`,
`cap = 1`, the true solution is `scale ≤ 5e-7`, so after 40 iterations
`lo < 1e-6` and the returned value is the clamp `1e-6`, which yields a
`ceil(2e6 * 1e-6) = 2` by `2` grid: 4 tiles > cap 1. -/
theorem scale_for_tile_cap_feasible_cex :
    ¬ gridCount 2000000 2000000 1 (scale_for_tile_cap 2000000 2000000 1 1) ≤ ((1 : ℕ) : ℤ) := by
  have h0 : gridCount 2000000 2000000 1 ((0 : ℚ), (1 : ℚ)).1 ≤ ((1 : ℕ) : ℤ) := by
    simp only [gridCount]
    norm_num
  have hlo := bisectLoop_inv 2000000 2000000 1 1 40 ((0 : ℚ), (1 : ℚ)) h0
  set lo := (bisectLoop 2000000 2000000 1 1 40 ((0 : ℚ), (1 : ℚ))).1 with hloDef
  simp only [gridCount] at hlo
  push_cast at hlo
  rw [div_one] at hlo
  have hub : max 1 ⌈(2000000 : ℚ) * lo⌉ ≤ 1 := by
    by_contra hcon
    push_neg at hcon
    have h2 : (2 : ℤ) ≤ max 1 ⌈(2000000 : ℚ) * lo⌉ := hcon
    have h4 : (4 : ℤ) ≤ max 1 ⌈(2000000 : ℚ) * lo⌉ * max 1 ⌈(2000000 : ℚ) * lo⌉ := by
      calc (4 : ℤ) = 2 * 2 := by norm_num
      _ ≤ _ := mul_le_mul h2 h2 (by norm_num) (by omega)
    omega
  have hceil : ⌈(2000000 : ℚ) * lo⌉ ≤ 1 := le_trans (le_max_right _ _) hub
  have hle : lo ≤ 1 / 2000000 := by
    have h2 : (2000000 : ℚ) * lo ≤ ((1 : ℤ) : ℚ) := Int.ceil_le.mp hceil
    push_cast at h2
    linarith
  have hclamp : scale_for_tile_cap 2000000 2000000 1 1 = 1 / 1000000 := by
    unfold scale_for_tile_cap
    rw [← hloDef, max_eq_left (by linarith)]
  rw [hclamp]
  unfold gridCount
  norm_num

lemma ceilDiv_le_iff (n d k : ℕ) (hd : 0 < d) : ceilDiv n d ≤ k ↔ n ≤ d * k := by
  unfold ceilDiv
  rw [Nat.div_le_iff_le_mul_add_pred hd]
  generalize d * k = m
  omega

lemma le_mul_ceilDiv (n d : ℕ) (hd : 0 < d) : n ≤ d * ceilDiv n d :=
  (ceilDiv_le_iff n d (ceilDiv n d) hd).mp le_rfl

lemma ceilDiv_pos (n d : ℕ) (hn : 0 < n) (hd : 0 < d) : 0 < ceilDiv n d := by
  by_contra h
  push_neg at h
  have := (ceilDiv_le_iff n d 0 hd).mp (by omega)
  omega

lemma gridCells_pos (n : ℕ) (hn : 1 ≤ n) : 0 < gridCells n :=
  ceilDiv_pos n TILE_SIDE hn (by norm_num [TILE_SIDE])

lemma tileLen_pos (n : ℕ) (hn : 1 ≤ n) : 0 < tileLen n :=
  ceilDiv_pos n (gridCells n) hn (gridCells_pos n hn)

/-- The grid covers the axis: `n ≤ cells * tileLen`. -/
lemma le_gridCells_mul_tileLen (n : ℕ) (hn : 1 ≤ n) : n ≤ gridCells n * tileLen n :=
  le_mul_ceilDiv n (gridCells n) (gridCells_pos n hn)

/-- `tile_w = ceil(newW / ceil(newW / TILE_SIDE)) ≤ TILE_SIDE`. -/
lemma tileLen_le (n : ℕ) (hn : 1 ≤ n) : tileLen n ≤ TILE_SIDE := by
  have hc : 0 < gridCells n := gridCells_pos n hn
  have h1 : n ≤ TILE_SIDE * gridCells n := le_mul_ceilDiv n TILE_SIDE (by norm_num [TILE_SIDE])
  rw [tileLen, ceilDiv_le_iff _ _ _ hc, mul_comm]
  exact h1

lemma cropLen_le_tileLen (n i : ℕ) : cropLen n i ≤ tileLen n := by
  unfold cropLen crop1
  have h1 : min n (crop0 n i + tileLen n) ≤ crop0 n i + tileLen n := min_le_right _ _
  omega

/-- C10: for `newW, newH ≥ 1` and the grid computed from them, every
cropped tile fits inside `TILE_SIDE × TILE_SIDE`, hence has at most
`MAX_PIXELS` pixels, so the 1 MP downscale branch (`scale_mp < 1.0`) is
never taken. -/
theorem crop_dims_bounded (newW newH : ℕ) (hW : 1 ≤ newW) (hH : 1 ≤ newH) (r c : ℕ) :
    cropLen newW c ≤ TILE_SIDE ∧ cropLen newH r ≤ TILE_SIDE ∧
      cropLen newW c * cropLen newH r ≤ MAX_PIXELS ∧
      mpBranch (cropLen newW c) (cropLen newH r) = false := by
  have hw : cropLen newW c ≤ TILE_SIDE :=
    le_trans (cropLen_le_tileLen newW c) (tileLen_le newW hW)
  have hh : cropLen newH r ≤ TILE_SIDE :=
    le_trans (cropLen_le_tileLen newH r) (tileLen_le newH hH)
  have harea : cropLen newW c * cropLen newH r ≤ MAX_PIXELS := by
    have := Nat.mul_le_mul hw hh
    have hts : TILE_SIDE * TILE_SIDE = MAX_PIXELS := by decide
    omega
  refine ⟨hw, hh, harea, ?_⟩
  simp only [mpBranch, decide_eq_false_iff_not, not_lt]
  exact harea

/-- Witness for `crop_dims_bounded` at `newW = 2500, newH = 1700, r = 1, c = 2`. -/
theorem crop_dims_bounded_witness :
    cropLen 2500 2 ≤ TILE_SIDE ∧ cropLen 1700 1 ≤ TILE_SIDE ∧
      cropLen 2500 2 * cropLen 1700 1 ≤ MAX_PIXELS ∧
      mpBranch (cropLen 2500 2) (cropLen 1700 1) = false :=
  crop_dims_bounded 2500 1700 (by decide) (by decide) 1 2

/-- Every pixel coordinate on an axis lies in exactly one tile's
half-open pixel interval: exact cover, no overlap. -/
lemma crop_cover_unique (n : ℕ) (hn : 1 ≤ n) (x : ℕ) (hx : x < n) :
    ∃! i, i < gridCells n ∧ crop0 n i ≤ x ∧ x < crop1 n i := by
  have ht : 0 < tileLen n := tileLen_pos n hn
  have hcov : n ≤ gridCells n * tileLen n := le_gridCells_mul_tileLen n hn
  refine ⟨x / tileLen n, ⟨?_, ?_, ?_⟩, ?_⟩
  · rw [Nat.div_lt_iff_lt_mul ht]
    exact lt_of_lt_of_le hx hcov
  · exact Nat.div_mul_le_self x (tileLen n)
  · unfold crop1 crop0
    apply lt_min hx
    have h2 : x % tileLen n < tileLen n := Nat.mod_lt x ht
    have h3 : tileLen n * (x / tileLen n) + x % tileLen n <
        tileLen n * (x / tileLen n) + tileLen n := Nat.add_lt_add_left h2 _
    rw [Nat.div_add_mod] at h3
    rw [mul_comm (x / tileLen n) (tileLen n)]
    exact h3
  · rintro j ⟨_, hj2, hj3⟩
    have hj3' : x < j * tileLen n + tileLen n :=
      lt_of_lt_of_le hj3 (min_le_right _ _)
    have h2 : x < (j + 1) * tileLen n := by
      rw [add_mul, one_mul]
      exact hj3'
    exact (Nat.div_eq_of_lt_le hj2 h2).symm

/-- If tile `i+1` is non-degenerate, tile `i`'s right pixel edge is tile
`i+1`'s left pixel edge. -/
lemma crop1_eq_crop0_succ (n i : ℕ) (h : crop0 n (i+1) < crop1 n (i+1)) :
    crop1 n i = crop0 n (i+1) := by
  have h2 : crop0 n (i+1) < n := by
    have := lt_min_iff.mp (lt_of_lt_of_le h (le_of_eq rfl))
    exact this.1
  unfold crop1 crop0 at *
  have h3 : i * tileLen n + tileLen n = (i + 1) * tileLen n := by ring
  rw [h3]
  exact min_eq_right (le_of_lt h2)

/-- The tile containing the last pixel extends exactly to the axis end. -/
lemma crop1_last (n : ℕ) (hn : 1 ≤ n) : crop1 n ((n - 1) / tileLen n) = n := by
  have ht : 0 < tileLen n := tileLen_pos n hn
  unfold crop1 crop0
  apply min_eq_left
  have h := Nat.div_add_mod (n - 1) (tileLen n)
  have h2 := Nat.mod_lt (n - 1) ht
  rw [mul_comm ((n - 1) / tileLen n) (tileLen n)]
  generalize hA : tileLen n * ((n - 1) / tileLen n) = A at h ⊢
  omega

lemma twest_zero (west0 east0 : ℚ) (n : ℕ) : twest west0 east0 n 0 = west0 := by
  simp [twest, crop0]

lemma tnorth_zero (north0 south0 : ℚ) (n : ℕ) : tnorth north0 south0 n 0 = north0 := by
  simp [tnorth, crop0]

lemma teast_eq_twest_succ (west0 east0 : ℚ) (n c : ℕ)
    (h : crop0 n (c+1) < crop1 n (c+1)) :
    teast west0 east0 n c = twest west0 east0 n (c+1) := by
  unfold teast twest
  rw [crop1_eq_crop0_succ n c h]

lemma tsouth_eq_tnorth_succ (north0 south0 : ℚ) (n r : ℕ)
    (h : crop0 n (r+1) < crop1 n (r+1)) :
    tsouth north0 south0 n r = tnorth north0 south0 n (r+1) := by
  unfold tsouth tnorth
  rw [crop1_eq_crop0_succ n r h]

lemma teast_last (west0 east0 : ℚ) (n : ℕ) (hn : 1 ≤ n) :
    teast west0 east0 n ((n - 1) / tileLen n) = east0 := by
  unfold teast
  rw [crop1_last n hn]
  have hne : ((n : ℚ)) ≠ 0 := Nat.cast_ne_zero.mpr (by omega)
  rw [div_self hne]
  ring

lemma tsouth_last (north0 south0 : ℚ) (n : ℕ) (hn : 1 ≤ n) :
    tsouth north0 south0 n ((n - 1) / tileLen n) = south0 := by
  unfold tsouth
  rw [crop1_last n hn]
  have hne : ((n : ℚ)) ≠ 0 := Nat.cast_ne_zero.mpr (by omega)
  rw [div_self hne]
  ring

lemma tsouth_lt_tnorth (north0 south0 : ℚ) (n r : ℕ) (hns : south0 < north0)
    (h : crop0 n r < crop1 n r) :
    tsouth north0 south0 n r < tnorth north0 south0 n r := by
  have hnn : 0 < n := by
    have h1 : crop1 n r ≤ n := min_le_left _ _
    omega
  have hnQ : (0 : ℚ) < (n : ℚ) := by exact_mod_cast hnn
  have hy : ((crop0 n r : ℚ)) < (crop1 n r : ℚ) := by exact_mod_cast h
  have hspan : (0 : ℚ) < north0 - south0 := by linarith
  have hm : (north0 - south0) * ((crop0 n r : ℚ) / (n : ℚ)) <
      (north0 - south0) * ((crop1 n r : ℚ) / (n : ℚ)) :=
    mul_lt_mul_of_pos_left ((div_lt_div_right hnQ).mpr hy) hspan
  unfold tsouth tnorth
  linarith

lemma tnorth_antitone (north0 south0 : ℚ) (n r : ℕ) (hn : 1 ≤ n)
    (hns : south0 ≤ north0) :
    tnorth north0 south0 n (r+1) ≤ tnorth north0 south0 n r := by
  have hnQ : (0 : ℚ) < (n : ℚ) := by exact_mod_cast hn
  have hy : ((crop0 n r : ℚ)) ≤ (crop0 n (r+1) : ℚ) := by
    have : crop0 n r ≤ crop0 n (r+1) := Nat.mul_le_mul_right _ (Nat.le_succ r)
    exact_mod_cast this
  have hspan : (0 : ℚ) ≤ north0 - south0 := by linarith
  have hm := mul_le_mul_of_nonneg_left ((div_le_div_right hnQ).mpr hy) hspan
  unfold tnorth
  linarith

/-- C6: the tile geo-boxes computed by linear interpolation partition the
overall box.  In pixel space every coordinate lies in exactly one tile
interval on each axis (no overlap, no gap); in geo space adjacent
non-degenerate tiles share their east/west and south/north edges, tile
column 0 starts at `west0`, row 0 starts at `north0` (northernmost), the
tiles containing the last pixel reach exactly `east0` and `south0`, and the
Y axis is flipped: souths lie strictly below norths (for a non-degenerate
box) and `tnorth` decreases as the pixel row increases. -/
theorem tile_geobox_partition (north0 south0 east0 west0 : ℚ) (newW newH : ℕ)
    (hW : 1 ≤ newW) (hH : 1 ≤ newH) :
    (∀ x < newW, ∃! c, c < gridCells newW ∧ crop0 newW c ≤ x ∧ x < crop1 newW c)
    ∧ (∀ y < newH, ∃! r, r < gridCells newH ∧ crop0 newH r ≤ y ∧ y < crop1 newH r)
    ∧ (∀ c, crop0 newW (c+1) < crop1 newW (c+1) →
        teast west0 east0 newW c = twest west0 east0 newW (c+1))
    ∧ (∀ r, crop0 newH (r+1) < crop1 newH (r+1) →
        tsouth north0 south0 newH r = tnorth north0 south0 newH (r+1))
    ∧ twest west0 east0 newW 0 = west0
    ∧ tnorth north0 south0 newH 0 = north0
    ∧ teast west0 east0 newW ((newW - 1) / tileLen newW) = east0
    ∧ tsouth north0 south0 newH ((newH - 1) / tileLen newH) = south0
    ∧ (∀ r, south0 < north0 → crop0 newH r < crop1 newH r →
        tsouth north0 south0 newH r < tnorth north0 south0 newH r)
    ∧ (∀ r, south0 ≤ north0 →
        tnorth north0 south0 newH (r+1) ≤ tnorth north0 south0 newH r) :=
  ⟨fun x hx => crop_cover_unique newW hW x hx,
   fun y hy => crop_cover_unique newH hH y hy,
   fun c h => teast_eq_twest_succ west0 east0 newW c h,
   fun r h => tsouth_eq_tnorth_succ north0 south0 newH r h,
   twest_zero west0 east0 newW,
   tnorth_zero north0 south0 newH,
   teast_last west0 east0 newW hW,
   tsouth_last north0 south0 newH hH,
   fun r hns h => tsouth_lt_tnorth north0 south0 newH r hns h,
   fun r hns => tnorth_antitone north0 south0 newH r hH hns⟩

/-- Witness for `tile_geobox_partition` at a 2500×1700 resampled image with
box north 48, south 47, east 12, west 11. -/
theorem tile_geobox_partition_witness :
    (∀ x < 2500, ∃! c, c < gridCells 2500 ∧ crop0 2500 c ≤ x ∧ x < crop1 2500 c)
    ∧ (∀ y < 1700, ∃! r, r < gridCells 1700 ∧ crop0 1700 r ≤ y ∧ y < crop1 1700 r)
    ∧ (∀ c, crop0 2500 (c+1) < crop1 2500 (c+1) →
        teast 11 12 2500 c = twest 11 12 2500 (c+1))
    ∧ (∀ r, crop0 1700 (r+1) < crop1 1700 (r+1) →
        tsouth 48 47 1700 r = tnorth 48 47 1700 (r+1))
    ∧ twest 11 12 2500 0 = 11
    ∧ tnorth 48 47 1700 0 = 48
    ∧ teast 11 12 2500 ((2500 - 1) / tileLen 2500) = 12
    ∧ tsouth 48 47 1700 ((1700 - 1) / tileLen 1700) = 47
    ∧ (∀ r, (47 : ℚ) < 48 → crop0 1700 r < crop1 1700 r →
        tsouth 48 47 1700 r < tnorth 48 47 1700 r)
    ∧ (∀ r, (47 : ℚ) ≤ 48 → tnorth 48 47 1700 (r+1) ≤ tnorth 48 47 1700 r) :=
  tile_geobox_partition 48 47 12 11 2500 1700 (by decide) (by decide)

lemma nine_tenths_lt (x : ℕ) (hx : 2 ≤ x) : max 1 (9 * x / 10) < x := by
  have h : 9 * x / 10 < x := by
    rw [Nat.div_lt_iff_lt_mul (by norm_num)]
    omega
  exact max_lt (by omega) h

lemma nine_tenths_le (x : ℕ) (hx : 1 ≤ x) : max 1 (9 * x / 10) ≤ x := by
  have h : 9 * x / 10 ≤ x := by
    rw [Nat.div_le_iff_le_mul_add_pred (by norm_num)]
    omega
  exact max_le hx h

/-- While the loop guard holds (area above the 64×64 floor), one resize
strictly decreases the pixel area, which is what bounds the iteration
count. -/
lemma shrink_dims_lt (w h : ℕ) (hwh : 64 * 64 < w * h) :
    max 1 (9 * w / 10) * max 1 (9 * h / 10) < w * h := by
  have hw : 1 ≤ w := by
    rcases Nat.eq_zero_or_pos w with rfl | h1
    · simp at hwh
    · exact h1
  have hh : 1 ≤ h := by
    rcases Nat.eq_zero_or_pos h with rfl | h1
    · simp at hwh
    · exact h1
  by_cases hw2 : 2 ≤ w
  · have h1 : max 1 (9 * w / 10) * max 1 (9 * h / 10) < w * max 1 (9 * h / 10) :=
      mul_lt_mul_of_pos_right (nine_tenths_lt w hw2)
        (lt_of_lt_of_le one_pos (le_max_left 1 _))
    have h2 : w * max 1 (9 * h / 10) ≤ w * h := Nat.mul_le_mul_left w (nine_tenths_le h hh)
    exact lt_of_lt_of_le h1 h2
  · have hw1 : w = 1 := by omega
    subst hw1
    rw [one_mul] at hwh ⊢
    have hh2 : 2 ≤ h := by omega
    have h1 : max 1 (9 * 1 / 10) * max 1 (9 * h / 10) = max 1 (9 * h / 10) := by norm_num
    rw [h1]
    exact nine_tenths_lt h hh2

/-- Once the fuel covers the initial pixel area, adding more fuel does not
change the result: the loop has already terminated. -/
lemma enforceFuel_stable (enc : Tile → ℕ) (rs : Tile → ℕ → ℕ → ℕ) :
    ∀ n m t, t.w * t.h ≤ n → n ≤ m →
      enforceFuel enc rs m t = enforceFuel enc rs n t := by
  intro n
  induction n with
  | zero =>
    intro m t hA hm
    have hg : ¬ (MAX_BYTES < enc t ∧ 64 * 64 < t.w * t.h) := by
      rintro ⟨_, h2⟩
      omega
    cases m with
    | zero => rfl
    | succ m => simp [enforceFuel, hg]
  | succ n ih =>
    intro m t hA hm
    cases m with
    | zero => omega
    | succ m =>
      by_cases hg : MAX_BYTES < enc t ∧ 64 * 64 < t.w * t.h
      · simp only [enforceFuel, if_pos hg]
        have h2 : (shrink rs t).w * (shrink rs t).h < t.w * t.h :=
          shrink_dims_lt t.w t.h hg.2
        exact ih m (shrink rs t) (Nat.lt_succ_iff.mp (lt_of_lt_of_le h2 hA)) (by omega)
      · simp only [enforceFuel, if_neg hg]

/-- With enough fuel the loop exits only with the guard false. -/
lemma enforceFuel_exit (enc : Tile → ℕ) (rs : Tile → ℕ → ℕ → ℕ) :
    ∀ n t, t.w * t.h ≤ n →
      ¬ (MAX_BYTES < enc (enforceFuel enc rs n t) ∧
         64 * 64 < (enforceFuel enc rs n t).w * (enforceFuel enc rs n t).h) := by
  intro n
  induction n with
  | zero =>
    intro t hA
    simp only [enforceFuel]
    rintro ⟨_, h2⟩
    omega
  | succ n ih =>
    intro t hA
    by_cases hg : MAX_BYTES < enc t ∧ 64 * 64 < t.w * t.h
    · simp only [enforceFuel, if_pos hg]
      have h2 : (shrink rs t).w * (shrink rs t).h < t.w * t.h :=
        shrink_dims_lt t.w t.h hg.2
      exact ih (shrink rs t) (Nat.lt_succ_iff.mp (lt_of_lt_of_le h2 hA))
    · simp only [enforceFuel, if_neg hg]
      exact hg

/-- The loop never enlarges a tile. -/
lemma enforceFuel_area_le (enc : Tile → ℕ) (rs : Tile → ℕ → ℕ → ℕ) :
    ∀ n t, (enforceFuel enc rs n t).w * (enforceFuel enc rs n t).h ≤ t.w * t.h := by
  intro n
  induction n with
  | zero => intro t; exact le_rfl
  | succ n ih =>
    intro t
    by_cases hg : MAX_BYTES < enc t ∧ 64 * 64 < t.w * t.h
    · simp only [enforceFuel, if_pos hg]
      exact le_trans (ih (shrink rs t)) (le_of_lt (shrink_dims_lt t.w t.h hg.2))
    · simp only [enforceFuel, if_neg hg]
      exact le_rfl

/-- The `max(1, ·)` in the resize keeps both dimensions at least 1. -/
lemma enforceFuel_dims_pos (enc : Tile → ℕ) (rs : Tile → ℕ → ℕ → ℕ) :
    ∀ n t, 1 ≤ t.w → 1 ≤ t.h →
      1 ≤ (enforceFuel enc rs n t).w ∧ 1 ≤ (enforceFuel enc rs n t).h := by
  intro n
  induction n with
  | zero => intro t hw hh; exact ⟨hw, hh⟩
  | succ n ih =>
    intro t hw hh
    by_cases hg : MAX_BYTES < enc t ∧ 64 * 64 < t.w * t.h
    · simp only [enforceFuel, if_pos hg]
      exact ih (shrink rs t) (le_max_left 1 _) (le_max_left 1 _)
    · simp only [enforceFuel, if_neg hg]
      exact ⟨hw, hh⟩

/-- C4 (amended): the shrink loop always terminates — `t.w * t.h` iterations
of fuel are enough, and any larger fuel gives the same result — and the
returned dimensions respect the `max(1, ·)` resize floor of 1×1 pixel.
(As stated the claim is false: the returned buffer CAN be smaller than
64×64 — see the counterexample — because a tile can enter the loop just
above the floor and overshoot below it, and a tile that starts below 64×64
is returned unchanged.) -/
theorem enforce_terminates (enc : Tile → ℕ) (rs : Tile → ℕ → ℕ → ℕ) (t : Tile) (n : ℕ)
    (hn : t.w * t.h ≤ n) (hw : 1 ≤ t.w) (hh : 1 ≤ t.h) :
    enforceFuel enc rs n t = enforce enc rs t ∧
      1 ≤ (enforce enc rs t).w ∧ 1 ≤ (enforce enc rs t).h :=
  ⟨enforceFuel_stable enc rs (t.w * t.h) n t le_rfl hn,
   enforceFuel_dims_pos enc rs (t.w * t.h) t hw hh⟩

/-- Witness for `enforce_terminates` on a 4×3 tile with a trivial encoder. -/
theorem enforce_terminates_witness :
    enforceFuel (fun _ => 0) (fun _ _ _ => 0) 12 ⟨4, 3, 0⟩ =
        enforce (fun _ => 0) (fun _ _ _ => 0) ⟨4, 3, 0⟩ ∧
      1 ≤ (enforce (fun _ => 0) (fun _ _ _ => 0) (⟨4, 3, 0⟩ : Tile)).w ∧
      1 ≤ (enforce (fun _ => 0) (fun _ _ _ => 0) (⟨4, 3, 0⟩ : Tile)).h :=
  enforce_terminates (fun _ => 0) (fun _ _ _ => 0) ⟨4, 3, 0⟩ 12 (by decide) (by decide)
    (by decide)

/-- C4 counterexample: a 65×64 tile (area 4160, just above the floor) whose
encoding stays above `MAX_BYTES` is shrunk once to 58×57 = 3306 pixels —
strictly smaller than the 64×64 = 4096 floor, with both dimensions below
64.  So the loop's result is NOT "never smaller than the floor
dimension". -/
theorem enforce_floor_cex :
    enforce (fun _ => MAX_BYTES + 1) (fun _ _ _ => 0) ⟨65, 64, 0⟩ = ⟨58, 57, 0⟩ ∧
      58 * 57 < 64 * 64 ∧ 58 < 64 ∧ 57 < 64 := by
  refine ⟨by decide, by decide, by decide, by decide⟩

/-- C5: for every tile whose enforced result is not at the 64×64 floor
(final area > 64*64), the loop exited because the encoded size is within
`MAX_BYTES`; and since the loop never enlarges a tile, a tile that starts
within `MAX_PIXELS` (which every grid crop does, by `crop_dims_bounded`)
also ends within `MAX_PIXELS`. -/
theorem enforce_byte_cap (enc : Tile → ℕ) (rs : Tile → ℕ → ℕ → ℕ) (t : Tile)
    (hA : t.w * t.h ≤ MAX_PIXELS)
    (hfloor : 64 * 64 < (enforce enc rs t).w * (enforce enc rs t).h) :
    enc (enforce enc rs t) ≤ MAX_BYTES ∧
      (enforce enc rs t).w * (enforce enc rs t).h ≤ MAX_PIXELS := by
  constructor
  · by_contra hb
    push_neg at hb
    exact enforceFuel_exit enc rs (t.w * t.h) t le_rfl ⟨hb, hfloor⟩
  · exact le_trans (enforceFuel_area_le enc rs (t.w * t.h) t) hA

/-- Witness for `enforce_byte_cap` on a 70×70 tile with a trivial encoder. -/
theorem enforce_byte_cap_witness :
    (fun _ => 0 : Tile → ℕ) (enforce (fun _ => 0) (fun _ _ _ => 0) ⟨70, 70, 0⟩) ≤ MAX_BYTES ∧
      (enforce (fun _ => 0) (fun _ _ _ => 0) (⟨70, 70, 0⟩ : Tile)).w *
        (enforce (fun _ => 0) (fun _ _ _ => 0) (⟨70, 70, 0⟩ : Tile)).h ≤ MAX_PIXELS :=
  enforce_byte_cap (fun _ => 0) (fun _ _ _ => 0) ⟨70, 70, 0⟩ (by decide) (by decide)

lemma foldl_const (f : ℚ → ℚ → ℚ) (V : ℚ) (hf : f V V = V) :
    ∀ (xs : List ℚ) (x : ℚ), (∀ v ∈ xs, v = V) → x = V → xs.foldl f x = V := by
  intro xs
  induction xs with
  | nil => intro x _ hx; simpa using hx
  | cons y ys ih =>
    intro x hall hx
    simp only [List.foldl_cons]
    apply ih
    · intro v hv
      exact hall v (List.mem_cons_of_mem y hv)
    · have hy : y = V := hall y (List.mem_cons_self y ys)
      rw [hx, hy, hf]

/-- C7: a non-empty constant single-band buffer (min = max) takes the
zero-fill branch — division by the zero range never happens — and produces
the all-zero three-channel 8-bit output. -/
theorem normalize_constant_zero (l : List ℚ) (V : ℚ) (hne : l ≠ [])
    (hconst : ∀ v ∈ l, v = V) :
    normalizeSingle l = List.replicate 3 (List.replicate l.length 0) := by
  obtain ⟨x, xs, rfl⟩ := List.exists_cons_of_ne_nil hne
  have hx : x = V := hconst x (List.mem_cons_self x xs)
  have hxs : ∀ v ∈ xs, v = V := fun v hv => hconst v (List.mem_cons_of_mem x hv)
  have hmin : bandMin (x :: xs) = V := foldl_const min V (min_self V) xs x hxs hx
  have hmax : bandMax (x :: xs) = V := foldl_const max V (max_self V) xs x hxs hx
  have hband : normBand (x :: xs) = (x :: xs).map fun _ => 0 := by
    unfold normBand
    rw [hmin, hmax, if_pos le_rfl]
  have hz : (normBand (x :: xs)).map u8 = List.replicate (x :: xs).length 0 := by
    rw [hband, List.map_map]
    have hc : (u8 ∘ fun (_ : ℚ) => (0 : ℚ)) = fun (_ : ℚ) => (0 : ℕ) := by
      funext v
      simp [u8, Function.comp]
    rw [hc]
    exact List.map_const _ 0
  unfold normalizeSingle
  rw [hz]
  rfl

/-- Witness for `normalize_constant_zero` on the buffer `[3, 3]`. -/
theorem normalize_constant_zero_witness :
    normalizeSingle [(3 : ℚ), 3] = List.replicate 3 (List.replicate 2 0) :=
  normalize_constant_zero [(3 : ℚ), 3] 3 (by simp)
    (by intro v hv; rcases List.mem_cons.mp hv with h | h
        · exact h
        · simpa using h)

/-- C8: a multi-band buffer already of dtype uint8 (all samples in
`[0, 255]`) with at least three bands passes its first three bands through
unchanged — no stretch is applied. -/
theorem normalize_uint8_passthrough (bands : List (List ℚ)) (h3 : 3 ≤ bands.length)
    (h255 : ∀ b ∈ bands, ∀ v ∈ b, 0 ≤ v ∧ v ≤ 255) :
    normalizeMulti true bands = bands.take 3 ∧ (normalizeMulti true bands).length = 3 := by
  constructor
  · simp [normalizeMulti]
  · simp only [normalizeMulti, if_pos]
    rw [List.length_take]
    exact min_eq_left h3

/-- Witness for `normalize_uint8_passthrough` on four one-sample bands. -/
theorem normalize_uint8_passthrough_witness :
    normalizeMulti true [[(0 : ℚ)], [7], [255], [128]] = [[(0 : ℚ)], [7], [255], [128]].take 3 ∧
      (normalizeMulti true [[(0 : ℚ)], [7], [255], [128]]).length = 3 :=
  normalize_uint8_passthrough [[(0 : ℚ)], [7], [255], [128]] (by simp)
    (by intro b hb v hv
        fin_cases hb <;> simp_all <;> norm_num)

lemma mkOverlay_fname (E : Ext) (B : Box) (newW newH idx r c : ℕ) :
    (mkOverlay E B newW newH idx r c).fname = tileName idx := rfl

/-- The nested row/column loop enumerates cells in raster-scan order:
cell number `i` is `(i / cols, i % cols)`. -/
lemma range_flatMap_eq (cols : ℕ) (hcols : 0 < cols) : ∀ rows : ℕ,
    ((List.range rows).flatMap fun r => (List.range cols).map fun c => (r, c)) =
      (List.range (rows * cols)).map fun i => (i / cols, i % cols) := by
  intro rows
  induction rows with
  | zero => simp
  | succ r ih =>
    rw [show List.range (r + 1) = List.range r ++ [r] from List.range_succ r,
      List.flatMap_append, ih,
      show (r + 1) * cols = r * cols + cols from by ring,
      List.range_add, List.map_append]
    congr 1
    rw [List.map_map]
    simp only [List.flatMap_cons, List.flatMap_nil, List.append_nil]
    apply List.map_congr_left
    intro c hc
    have hclt : c < cols := List.mem_range.mp hc
    simp only [Function.comp_apply]
    have hdiv : (r * cols + c) / cols = r := by
      rw [add_comm, Nat.add_mul_div_right _ _ hcols, Nat.div_eq_of_lt hclt, Nat.zero_add]
    have hmod : (r * cols + c) % cols = c := by
      rw [add_comm, Nat.add_mul_mod_self_right]
      exact Nat.mod_eq_of_lt hclt
    rw [hdiv, hmod]

/-- Running the loop body over cells numbered `a, a+1, …` with the counter
starting at `a`: each produced overlay is named by its global cell number,
and skipped (degenerate) cells still advance the counter. -/
lemma processCells_names (E : Ext) (B : Box) (newW newH cols : ℕ) :
    ∀ (n a : ℕ),
      (processCells E B newW newH ((List.range' a n).map fun i => (i / cols, i % cols))
          a).map Overlay.fname =
        ((List.range' a n).filter fun i => ! degen newW newH (i / cols, i % cols)).map
          tileName := by
  intro n
  induction n with
  | zero => intro a; simp [processCells]
  | succ n ih =>
    intro a
    rw [List.range'_succ]
    simp only [List.map_cons, List.filter_cons, processCells]
    by_cases hd : degen newW newH (a / cols, a % cols) = true
    · rw [if_pos hd, hd]
      simp only [Bool.not_true, Bool.false_eq_true, if_false]
      exact ih (a + 1)
    · rw [if_neg hd]
      have hd' : (! degen newW newH (a / cols, a % cols)) = true := by
        simp [Bool.not_eq_true'] at hd ⊢
        exact hd
      rw [if_pos hd']
      simp only [List.map_cons, mkOverlay_fname]
      rw [ih (a + 1)]

/-- C9: the overlay names of an export are exactly `image_NNN.jpg` for the
global raster-scan cell numbers `NNN` of the non-degenerate cells
(row-major, row 0 first): degenerate cells are skipped but still advance
the counter, so they leave gaps in the name sequence rather than the
indices being compacted. -/
theorem tile_names_scan_index (E : Ext) (B : Box) (newW newH : ℕ)
    (hW : 1 ≤ newW) (hH : 1 ≤ newH) :
    (overlaysFor E B newW newH).map Overlay.fname =
      ((List.range (gridCells newH * gridCells newW)).filter fun i =>
        ! degen newW newH (i / gridCells newW, i % gridCells newW)).map tileName := by
  have hcols : 0 < gridCells newW := gridCells_pos newW hW
  unfold overlaysFor cellsOf
  rw [range_flatMap_eq (gridCells newW) hcols (gridCells newH),
    List.range_eq_range' (gridCells newH * gridCells newW)]
  exact processCells_names E B newW newH (gridCells newW) (gridCells newH * gridCells newW) 0

/-- Witness for `tile_names_scan_index` at a 2500×1700 resampled image. -/
theorem tile_names_scan_index_witness :
    (overlaysFor extStub boxStub 2500 1700).map Overlay.fname =
      ((List.range (gridCells 1700 * gridCells 2500)).filter fun i =>
        ! degen 2500 1700 (i / gridCells 2500, i % gridCells 2500)).map tileName :=
  tile_names_scan_index extStub boxStub 2500 1700 (by decide) (by decide)

/-- C3 counterexample: a Custom (`dev_ix = 2`) tile cap of 0 (< 1) is NOT
rejected before processing: `processAlgorithm` clamps it to
`tile_cap = max(1, 0) = 1` and the export runs to completion, returning an
output. -/
theorem custom_cap_not_rejected_cex :
    tile_cap 2 0 = 1 ∧ (runExport extStub boxStub 2 0 4 3).isSome = true :=
  ⟨by decide, rfl⟩

/-- C3 (amended): a Custom tile cap below 1 is not rejected as a fatal
error; `processAlgorithm` clamps it to 1 (`tile_cap = max(1, custom)`) and
the export proceeds exactly as with cap 1, writing output.  (The
`CUSTOM_CAP` parameter is declared with `minValue=1`, so the host's
parameter form refuses such values before `processAlgorithm` runs, but
that rejection lives in the host framework, not in this algorithm.) -/
theorem custom_cap_clamped (E : Ext) (B : Box) (W H : ℕ) (custom : ℤ) (hc : custom < 1) :
    tile_cap 2 custom = 1 ∧ runExport E B 2 custom W H = runExport E B 2 1 W H := by
  have h1 : tile_cap 2 custom = 1 := by
    unfold tile_cap
    rw [if_pos rfl]
    exact max_eq_left (by omega)
  have h2 : tile_cap 2 1 = 1 := by decide
  refine ⟨h1, ?_⟩
  unfold runExport
  rw [h1, h2]

/-- Witness for `custom_cap_clamped` at `custom = 0`, `W = 4`, `H = 3`. -/
theorem custom_cap_clamped_witness :
    tile_cap 2 0 = 1 ∧
      runExport extStub boxStub 2 0 4 3 = runExport extStub boxStub 2 1 4 3 :=
  custom_cap_clamped extStub boxStub 4 3 0 (by decide)

end GarminExport
